import Mathlib

/-!
Verification of the barcoded k-mer pair counter (`bkc_filter`).

This file gives a shallow embedding of the counting core found in
`src/bkc_filter/bkc_filter.cpp` and `src/bkc_filter/processreads.cpp`:

* the 256-entry base-decoding table `char2bits` (built in `CBarcodedCounter::init`);
* the rolling 2-bit k-mer window (`CKmer`, modelled from §4.1/§4.8 of the spec:
  the class itself lives in a shared header outside this repository);
* the leader enumeration pass `enumerate_kmer_leaders_from_read`;
* the anchor-rediscover pair extractor `extract_fafq_style_anchor_target_pairs`
  that the counting driver `count_kmer_pairs` actually calls;
* the per-CBC aggregator `sort_and_gather_kmer_pairs_for_cbc`;
* the shard router `store_kmer_pairs` and the per-thread buffer/flush loop of
  `count_kmer_pairs`;
* the anchor-dictionary builder `prepare_anchor_dict` and `kmer_to_string`.

Reads are lists of byte values, strings are lists of byte values, and machine
integers are natural numbers reduced modulo `2 ^ 64` (or `4 ^ k` for the k-mer
window mask) exactly where the C++ code wraps.
-/

/-- Model of the 256-entry base-decoding table built in `CBarcodedCounter::init`:
`'A'/'a' ↦ 0`, `'C'/'c' ↦ 1`, `'G'/'g' ↦ 2`, `'T'/'t' ↦ 3`, every other byte
holds the sentinel 4. -/
def char2bits (c : Nat) : Nat :=
  if c = 65 then 0 else if c = 97 then 0
  else if c = 67 then 1 else if c = 99 then 1
  else if c = 71 then 2 else if c = 103 then 2
  else if c = 84 then 3 else if c = 116 then 3
  else 4

lemma char2bits_lt_iff (c : Nat) :
    char2bits c < 4 ↔ c ∈ [65, 97, 67, 99, 71, 103, 84, 116] := by
  unfold char2bits
  split_ifs <;> simp_all

/-- State of one rolling `CKmer` window (modelled from the spec, §4.1/§4.8):
`val` is the 2-bit packed content masked to the window width, `cnt` the number
of valid bases inserted since the last reset, saturating at the width. -/
structure KmerState where
  val : Nat
  cnt : Nat
deriving DecidableEq

/-- Model of walking one byte of a read with a width-`k` window: a valid base is
inserted (`CKmer::insert`: shift by two bits, mask, saturating count), an
invalid byte resets the window (`CKmer::Reset`). -/
def feedSym (k : Nat) (s : KmerState) (c : Nat) : KmerState :=
  if char2bits c < 4 then ⟨(s.val * 4 + char2bits c) % 4 ^ k, min (s.cnt + 1) k⟩
  else ⟨0, 0⟩

/-- Window state after walking a whole byte list from the reset state. -/
def feedList (k : Nat) (xs : List Nat) : KmerState :=
  xs.foldl (feedSym k) ⟨0, 0⟩

/-- Masked 2-bit accumulation over a byte list starting from accumulator `a`. -/
def foldMask (k a : Nat) (w : List Nat) : Nat :=
  w.foldl (fun a c => (a * 4 + char2bits c) % 4 ^ k) a

/-- MSB-first 2-bit encoding of a window of bytes, masked to `2·k` bits; this is
`CKmer::data_aligned_dir()` for a fully accumulated window. -/
def encodeKmer (k : Nat) (w : List Nat) : Nat := foldMask k 0 w

/-- Unmasked 2-bit accumulation, used to reason about the masked one. -/
def polyAcc (a : Nat) (w : List Nat) : Nat :=
  w.foldl (fun a c => a * 4 + char2bits c) a

/-- Number of valid bases at the tail of a byte list (length of the maximal
all-valid suffix). -/
def vsuf (xs : List Nat) : Nat :=
  (xs.reverse.takeWhile (fun c => decide (char2bits c < 4))).length

/-- Last `k` elements of a list (the whole list when it is shorter). -/
def lastN (k : Nat) (xs : List α) : List α := xs.drop (xs.length - k)

lemma polyAcc_append (a c : Nat) (w : List Nat) :
    polyAcc a (w ++ [c]) = polyAcc a w * 4 + char2bits c := by
  simp [polyAcc, List.foldl_append]

lemma foldMask_append (k a c : Nat) (w : List Nat) :
    foldMask k a (w ++ [c]) = (foldMask k a w * 4 + char2bits c) % 4 ^ k := by
  simp [foldMask, List.foldl_append]

lemma feedList_append (k c : Nat) (xs : List Nat) :
    feedList k (xs ++ [c]) = feedSym k (feedList k xs) c := by
  simp [feedList, List.foldl_append]

lemma polyAcc_eq (w : List Nat) : ∀ a : Nat,
    polyAcc a w = a * 4 ^ w.length + polyAcc 0 w := by
  induction w with
  | nil => intro a; simp [polyAcc]
  | cons c w ih =>
      intro a
      have h1 : polyAcc a (c :: w) = polyAcc (a * 4 + char2bits c) w := rfl
      have h2 : polyAcc 0 (c :: w) = polyAcc (char2bits c) w := by
        simp [polyAcc]
      rw [h1, h2, ih (a * 4 + char2bits c), ih (char2bits c)]
      ring_nf
      rw [List.length_cons]
      ring

lemma foldMask_eq (k : Nat) (w : List Nat) : ∀ a : Nat,
    foldMask k (a % 4 ^ k) w = polyAcc a w % 4 ^ k := by
  induction w with
  | nil => intro a; simp [foldMask, polyAcc]
  | cons c w ih =>
      intro a
      have h1 : foldMask k (a % 4 ^ k) (c :: w)
          = foldMask k ((a % 4 ^ k * 4 + char2bits c) % 4 ^ k) w := rfl
      have h2 : (a % 4 ^ k * 4 + char2bits c) % 4 ^ k
          = (a * 4 + char2bits c) % 4 ^ k :=
        ((Nat.mod_modEq a (4 ^ k)).mul_right 4).add_right (char2bits c)
      rw [h1, h2, ih (a * 4 + char2bits c)]
      rfl

lemma foldMask_zero_eq (k : Nat) (w : List Nat) :
    foldMask k 0 w = polyAcc 0 w % 4 ^ k := by
  have := foldMask_eq k w 0
  simpa using this

lemma foldMask_lt (k : Nat) (w : List Nat) : ∀ a : Nat, a < 4 ^ k →
    foldMask k a w < 4 ^ k := by
  induction w with
  | nil => intro a ha; simpa [foldMask] using ha
  | cons c w ih =>
      intro a ha
      have h1 : foldMask k a (c :: w)
          = foldMask k ((a * 4 + char2bits c) % 4 ^ k) w := rfl
      rw [h1]
      exact ih _ (Nat.mod_lt _ (Nat.pos_pow_of_pos k (by norm_num)))

/-- Feeding a full-width window makes the initial accumulator irrelevant. -/
lemma foldMask_full (k a : Nat) (w : List Nat) (ha : a < 4 ^ k)
    (hw : w.length = k) : foldMask k a w = encodeKmer k w := by
  have h1 : foldMask k a w = foldMask k (a % 4 ^ k) w := by
    rw [Nat.mod_eq_of_lt ha]
  rw [h1, foldMask_eq, encodeKmer, foldMask_zero_eq, polyAcc_eq w a]
  rw [hw, Nat.add_comm, Nat.add_mul_mod_self_right]

lemma vsuf_nil : vsuf [] = 0 := by simp [vsuf]

lemma vsuf_append (c : Nat) (xs : List Nat) :
    vsuf (xs ++ [c]) = if char2bits c < 4 then vsuf xs + 1 else 0 := by
  by_cases h : char2bits c < 4 <;>
    simp [vsuf, List.takeWhile_cons, h]

lemma vsuf_le (xs : List Nat) : vsuf xs ≤ xs.length := by
  have h : List.Sublist
      (xs.reverse.takeWhile (fun c => decide (char2bits c < 4))) xs.reverse :=
    List.takeWhile_sublist _
  have h2 := h.length_le
  simpa [vsuf] using h2

lemma lastN_nil (k : Nat) : lastN k ([] : List α) = [] := by
  simp [lastN]

lemma lastN_zero (xs : List α) : lastN 0 xs = [] := by
  simp [lastN]

lemma lastN_append (k : Nat) (c : α) (xs : List α) :
    lastN (k + 1) (xs ++ [c]) = lastN k xs ++ [c] := by
  unfold lastN
  have h1 : (xs ++ [c]).length - (k + 1) = xs.length - k := by
    rw [List.length_append, List.length_singleton]; omega
  rw [h1, List.drop_append_eq_append_drop]
  have h2 : xs.length - k - xs.length = 0 := by omega
  rw [h2]
  rfl

lemma length_lastN (k : Nat) (xs : List α) :
    (lastN k xs).length = min k xs.length := by
  simp [lastN]; omega

lemma lastN_lastN (k m : Nat) (xs : List α) (h : k ≤ m) :
    lastN k (lastN m xs) = lastN k xs := by
  unfold lastN
  rw [List.drop_drop]
  congr 1
  rw [List.length_drop]
  omega

lemma mem_lastN (k : Nat) (xs : List α) (x : α) (h : x ∈ lastN k xs) : x ∈ xs :=
  List.mem_of_mem_drop h

lemma take_append_lastN (k : Nat) (xs : List α) :
    xs.take (xs.length - k) ++ lastN k xs = xs :=
  List.take_append_drop _ xs

/-- Members of the maximal valid suffix are valid bases. -/
lemma mem_lastN_vsuf (xs : List Nat) :
    ∀ c ∈ lastN (vsuf xs) xs, char2bits c < 4 := by
  induction xs using List.reverseRecOn with
  | nil => intro c hc; simp [lastN] at hc
  | append_singleton xs x ih =>
      intro c hc
      rw [vsuf_append] at hc
      by_cases hx : char2bits x < 4
      · rw [if_pos hx, lastN_append] at hc
        rcases List.mem_append.mp hc with h | h
        · exact ih c h
        · rwa [List.mem_singleton.mp h]
      · rw [if_neg hx, lastN_zero] at hc
        exact absurd hc (List.not_mem_nil c)

lemma vsuf_ge_of_valid (xs : List Nat) : ∀ k : Nat, k ≤ xs.length →
    (∀ c ∈ lastN k xs, char2bits c < 4) → k ≤ vsuf xs := by
  induction xs using List.reverseRecOn with
  | nil =>
      intro k hk _
      have hk0 : k = 0 := by simpa using hk
      simp [hk0]
  | append_singleton xs x ih =>
      intro k hk hval
      match k with
      | 0 => exact Nat.zero_le _
      | k + 1 =>
          rw [lastN_append] at hval
          have hx : char2bits x < 4 :=
            hval x (List.mem_append.mpr (Or.inr (List.mem_singleton.mpr rfl)))
          have hk' : k ≤ xs.length := by
            have := hk; simp at this; omega
          have h1 : k ≤ vsuf xs :=
            ih k hk' (fun c hc => hval c (List.mem_append.mpr (Or.inl hc)))
          rw [vsuf_append, if_pos hx]
          omega

lemma vsuf_ge_iff (k : Nat) (xs : List Nat) (hk : k ≤ xs.length) :
    k ≤ vsuf xs ↔ ∀ c ∈ lastN k xs, char2bits c < 4 := by
  constructor
  · intro h c hc
    have h1 : lastN k xs = lastN k (lastN (vsuf xs) xs) :=
      (lastN_lastN k (vsuf xs) xs h).symm
    rw [h1] at hc
    exact mem_lastN_vsuf xs c (mem_lastN _ _ _ hc)
  · exact vsuf_ge_of_valid xs k hk

/-- Walking a byte list from reset leaves the window holding the masked
encoding of the maximal valid suffix, with a saturating count of its length. -/
lemma feedList_eq (k : Nat) (xs : List Nat) :
    feedList k xs = ⟨encodeKmer k (lastN (vsuf xs) xs), min (vsuf xs) k⟩ := by
  induction xs using List.reverseRecOn with
  | nil => simp [feedList, vsuf_nil, lastN_zero, encodeKmer, foldMask]
  | append_singleton xs x ih =>
      rw [feedList_append, ih, feedSym]
      by_cases hx : char2bits x < 4
      · rw [if_pos hx, vsuf_append, if_pos hx, lastN_append]
        have h1 : encodeKmer k (lastN (vsuf xs) xs ++ [x])
            = (encodeKmer k (lastN (vsuf xs) xs) * 4 + char2bits x) % 4 ^ k :=
          foldMask_append k 0 x _
        rw [h1]
        have h2 : min (min (vsuf xs) k + 1) k = min (vsuf xs + 1) k := by omega
        rw [h2]
      · rw [if_neg hx, vsuf_append, if_neg hx, lastN_zero]
        simp [encodeKmer, foldMask]

lemma feedList_cnt (k : Nat) (xs : List Nat) :
    (feedList k xs).cnt = min (vsuf xs) k := by
  rw [feedList_eq]

/-- A window is full exactly when the last `k` walked bytes are all valid. -/
lemma feedList_full_iff (k : Nat) (xs : List Nat) (hk : k ≤ xs.length) :
    (feedList k xs).cnt = k ↔ ∀ c ∈ lastN k xs, char2bits c < 4 := by
  rw [feedList_cnt, ← vsuf_ge_iff k xs hk]
  have := vsuf_le xs
  omega

/-- A full window holds the masked MSB-first encoding of the last `k` bytes. -/
lemma feedList_val_full (k : Nat) (xs : List Nat) (h : k ≤ vsuf xs) :
    (feedList k xs).val = encodeKmer k (lastN k xs) := by
  rw [feedList_eq]
  show encodeKmer k (lastN (vsuf xs) xs) = encodeKmer k (lastN k xs)
  set w := lastN (vsuf xs) xs with hw
  have hlen : w.length = vsuf xs := by
    rw [hw, length_lastN]
    have := vsuf_le xs
    omega
  have hsplit : w.take (w.length - k) ++ lastN k w = w := take_append_lastN k w
  have h1 : encodeKmer k w = foldMask k (foldMask k 0 (w.take (w.length - k))) (lastN k w) := by
    conv_lhs => rw [← hsplit]
    simp [encodeKmer, foldMask, List.foldl_append]
  have h2 : foldMask k 0 (w.take (w.length - k)) < 4 ^ k :=
    foldMask_lt k _ 0 (Nat.pos_pow_of_pos k (by norm_num))
  have h3 : (lastN k w).length = k := by
    rw [length_lastN]
    omega
  rw [h1, foldMask_full k _ _ h2 h3, hw, lastN_lastN k (vsuf xs) xs h]

/-- Bytes of the read at positions `p, …, p + k - 1`. -/
def window (bases : List Nat) (p k : Nat) : List Nat := (bases.drop p).take k

/-- All bytes of a window are valid bases. -/
def winValidB (w : List Nat) : Bool := w.all (fun c => decide (char2bits c < 4))

/-- Position `p` is valid: its leader region and its follower region (starting
`leader_len + gap_len` later) consist of valid bases only. -/
def validPosB (ll gl fl : Nat) (bases : List Nat) (p : Nat) : Bool :=
  winValidB (window bases p ll) && winValidB (window bases (p + ll + gl) fl)

/-- Encoding of the leader window at position `p`. -/
def leaderAt (ll : Nat) (bases : List Nat) (p : Nat) : Nat :=
  encodeKmer ll (window bases p ll)

/-- Leader emitted at position `p` by the leader-enumeration pass, when any. -/
def emitAt (ll gl fl : Nat) (bases : List Nat) (p : Nat) : Option Nat :=
  if validPosB ll gl fl bases p then some (leaderAt ll bases p) else none

/-- One iteration of the main loop of
`CBarcodedCounter::enumerate_kmer_leaders_from_read`: insert byte `i` into the
follower window and byte `i - follower_len - gap_len` into the leader window,
then record the leader when both windows are full. -/
def enumStep (ll gl fl : Nat) (bases : List Nat)
    (st : KmerState × KmerState × List Nat) (i : Nat) :
    KmerState × KmerState × List Nat :=
  let fo := feedSym fl st.2.1 (bases.getD i 0)
  let le := feedSym ll st.1 (bases.getD (i - fl - gl) 0)
  let acc := if le.cnt = ll ∧ fo.cnt = fl then st.2.2 ++ [le.val] else st.2.2
  (le, fo, acc)

/-- Model of `CBarcodedCounter::enumerate_kmer_leaders_from_read`: returns the
leaders it appends, in order.  Short reads are rejected up front; then the
leader window is pre-filled with the first `leader_len - 1` bytes, the follower
window with the `follower_len - 1` bytes starting at `leader_len + gap_len`,
and the main loop walks the remaining byte positions. -/
def enumLeadersRead (ll gl fl : Nat) (bases : List Nat) : List Nat :=
  if ll + gl + fl > bases.length then []
  else
    ((List.range' (ll + gl + fl - 1) (bases.length - (ll + gl + fl - 1))).foldl
      (enumStep ll gl fl bases)
      ((bases.take (ll - 1)).foldl (feedSym ll) ⟨0, 0⟩,
       ((bases.drop (ll + gl)).take (fl - 1)).foldl (feedSym fl) ⟨0, 0⟩,
       [])).2.2

lemma winValidB_iff (w : List Nat) :
    winValidB w = true ↔ ∀ c ∈ w, char2bits c < 4 := by
  simp [winValidB, List.all_eq_true]

lemma getD_eq_getElem (l : List Nat) (n : Nat) (h : n < l.length) :
    l.getD n 0 = l[n] := by
  simp [List.getD_eq_getElem?_getD, List.getElem?_eq_getElem h]

lemma take_succ_getD (l : List Nat) (n : Nat) (h : n < l.length) :
    l.take (n + 1) = l.take n ++ [l.getD n 0] := by
  rw [List.take_succ, List.getElem?_eq_getElem h]
  simp [List.getD_eq_getElem?_getD, List.getElem?_eq_getElem h]

lemma drop_getD (l : List Nat) (m j : Nat) (h : m + j < l.length) :
    (l.drop m).getD j 0 = l.getD (m + j) 0 := by
  have hj : j < (l.drop m).length := by rw [List.length_drop]; omega
  rw [getD_eq_getElem _ j hj, getD_eq_getElem l (m + j) h]
  exact List.getElem_drop l

lemma lastN_take (k p : Nat) (l : List Nat) (h : k + p ≤ l.length) :
    lastN k (l.take (k + p)) = (l.drop p).take k := by
  unfold lastN
  rw [List.length_take]
  have h1 : min (k + p) l.length - k = p := by omega
  rw [h1, List.drop_take]
  congr 1
  omega

/-- Leader window state once position `p` has been processed. -/
lemma leader_full_iff (ll p : Nat) (bases : List Nat) (h : ll + p ≤ bases.length) :
    ((feedList ll (bases.take (ll + p))).cnt = ll
      ↔ winValidB (window bases p ll) = true) ∧
    (ll ≤ vsuf (bases.take (ll + p)) →
      (feedList ll (bases.take (ll + p))).val = leaderAt ll bases p) := by
  have hlen : (bases.take (ll + p)).length = ll + p := by
    rw [List.length_take]; omega
  have hwin : lastN ll (bases.take (ll + p)) = window bases p ll :=
    lastN_take ll p bases h
  constructor
  · rw [feedList_full_iff ll _ (by omega), hwin, winValidB_iff]
  · intro hv
    rw [feedList_val_full ll _ hv, hwin, leaderAt]

/-- Loop invariant of the main loop of `enumerate_kmer_leaders_from_read`:
after `n` iterations the two windows have walked the corresponding read
prefixes and the accumulator holds the emitted leaders of positions `0..n-1`. -/
lemma enumLoop_inv (ll gl fl : Nat) (bases : List Nat)
    (hll : 1 ≤ ll) (hfl : 1 ≤ fl) (htot : ll + gl + fl ≤ bases.length) :
    ∀ n, n ≤ bases.length - (ll + gl + fl - 1) →
    (List.range' (ll + gl + fl - 1) n).foldl (enumStep ll gl fl bases)
      (feedList ll (bases.take (ll - 1)),
       feedList fl ((bases.drop (ll + gl)).take (fl - 1)), [])
      = (feedList ll (bases.take (ll - 1 + n)),
         feedList fl ((bases.drop (ll + gl)).take (fl - 1 + n)),
         (List.range n).filterMap (emitAt ll gl fl bases)) := by
  intro n
  induction n with
  | zero => intro _; simp
  | succ n ih =>
      intro hn
      have hn' : n ≤ bases.length - (ll + gl + fl - 1) := by omega
      rw [List.range'_concat, List.foldl_append, ih hn']
      have hiL : ll + gl + fl - 1 + n < bases.length := by omega
      -- the two byte indices touched by this iteration
      have hidxf : fl - 1 + n < (bases.drop (ll + gl)).length := by
        rw [List.length_drop]; omega
      have hidxl : ll - 1 + n < bases.length := by omega
      have hstep :
          (List.foldl (enumStep ll gl fl bases)
            (feedList ll (bases.take (ll - 1 + n)),
             feedList fl ((bases.drop (ll + gl)).take (fl - 1 + n)),
             (List.range n).filterMap (emitAt ll gl fl bases))
            [ll + gl + fl - 1 + 1 * n])
          = enumStep ll gl fl bases
            (feedList ll (bases.take (ll - 1 + n)),
             feedList fl ((bases.drop (ll + gl)).take (fl - 1 + n)),
             (List.range n).filterMap (emitAt ll gl fl bases))
            (ll + gl + fl - 1 + n) := by
        rw [List.foldl_cons, List.foldl_nil, Nat.one_mul]
      rw [hstep]
      simp only [enumStep]
      -- follower window absorbs byte i
      have hfo : feedSym fl (feedList fl ((bases.drop (ll + gl)).take (fl - 1 + n)))
            (bases.getD (ll + gl + fl - 1 + n) 0)
          = feedList fl ((bases.drop (ll + gl)).take (fl - 1 + (n + 1))) := by
        rw [← feedList_append]
        congr 1
        have h2 : ll + gl + (fl - 1 + n) = ll + gl + fl - 1 + n := by omega
        have h1 : (bases.drop (ll + gl)).getD (fl - 1 + n) 0
            = bases.getD (ll + gl + fl - 1 + n) 0 := by
          rw [drop_getD bases (ll + gl) (fl - 1 + n) (by omega), h2]
        rw [← h1, ← take_succ_getD _ _ hidxf]
        congr 1
      -- leader window absorbs byte i - follower_len - gap_len
      have hle : feedSym ll (feedList ll (bases.take (ll - 1 + n)))
            (bases.getD (ll + gl + fl - 1 + n - fl - gl) 0)
          = feedList ll (bases.take (ll - 1 + (n + 1))) := by
        rw [← feedList_append]
        congr 1
        have h2 : ll + gl + fl - 1 + n - fl - gl = ll - 1 + n := by omega
        rw [h2, ← take_succ_getD _ _ hidxl]
        congr 1
      rw [hfo, hle]
      -- the emit decision at position n
      have hlead := leader_full_iff ll n bases (by omega)
      have hfoll := leader_full_iff fl n (bases.drop (ll + gl))
        (by rw [List.length_drop]; omega)
      have hlen1 : ll - 1 + (n + 1) = ll + n := by omega
      have hlen2 : fl - 1 + (n + 1) = fl + n := by omega
      rw [hlen1, hlen2]
      have hwinf : window (bases.drop (ll + gl)) n fl = window bases (n + ll + gl) fl := by
        unfold window
        rw [List.drop_drop]
        congr 2
        omega
      have hrange : (List.range (n + 1)).filterMap (emitAt ll gl fl bases)
          = (List.range n).filterMap (emitAt ll gl fl bases)
            ++ (List.filterMap (emitAt ll gl fl bases) [n]) := by
        rw [List.range_succ, List.filterMap_append]
      by_cases hv : validPosB ll gl fl bases n = true
      · have hv1 : winValidB (window bases n ll) = true := by
          have := hv; unfold validPosB at this
          exact (Bool.and_eq_true _ _).mp this |>.1
        have hv2 : winValidB (window bases (n + ll + gl) fl) = true := by
          have := hv; unfold validPosB at this
          exact (Bool.and_eq_true _ _).mp this |>.2
        have hcl : (feedList ll (bases.take (ll + n))).cnt = ll := by
          rw [hlead.1]; exact hv1
        have hcf : (feedList fl ((bases.drop (ll + gl)).take (fl + n))).cnt = fl := by
          rw [hfoll.1, hwinf]; exact hv2
        have hvall : ll ≤ vsuf (bases.take (ll + n)) := by
          have := feedList_cnt ll (bases.take (ll + n))
          omega
        have hval : (feedList ll (bases.take (ll + n))).val = leaderAt ll bases n :=
          hlead.2 hvall
        rw [if_pos ⟨hcl, hcf⟩, hrange, hval]
        have : List.filterMap (emitAt ll gl fl bases) [n] = [leaderAt ll bases n] := by
          simp [emitAt, hv]
        rw [this]
      · have hnot : ¬ ((feedList ll (bases.take (ll + n))).cnt = ll
            ∧ (feedList fl ((bases.drop (ll + gl)).take (fl + n))).cnt = fl) := by
          intro hcon
          apply hv
          unfold validPosB
          rw [Bool.and_eq_true]
          exact ⟨(hlead.1).mp hcon.1, hwinf ▸ ((hfoll.1).mp hcon.2)⟩
        rw [if_neg hnot, hrange]
        have : List.filterMap (emitAt ll gl fl bases) [n] = [] := by
          simp [emitAt, hv]
        rw [this, List.append_nil]

/-- Characterization of `enumerate_kmer_leaders_from_read`: the collected
leaders are exactly the leader encodings of the valid positions, in order. -/
lemma enumLeadersRead_eq (ll gl fl : Nat) (bases : List Nat)
    (hll : 1 ≤ ll) (hfl : 1 ≤ fl) :
    enumLeadersRead ll gl fl bases
      = (List.range (bases.length + 1 - (ll + gl + fl))).filterMap
          (emitAt ll gl fl bases) := by
  by_cases htot : ll + gl + fl > bases.length
  · rw [enumLeadersRead, if_pos htot]
    have h0 : bases.length + 1 - (ll + gl + fl) = 0 := by omega
    rw [h0]
    rfl
  · push_neg at htot
    rw [enumLeadersRead, if_neg (by omega)]
    have hinv := enumLoop_inv ll gl fl bases hll hfl htot
      (bases.length - (ll + gl + fl - 1)) le_rfl
    have hfeed1 : (bases.take (ll - 1)).foldl (feedSym ll) ⟨0, 0⟩
        = feedList ll (bases.take (ll - 1)) := rfl
    have hfeed2 : ((bases.drop (ll + gl)).take (fl - 1)).foldl (feedSym fl) ⟨0, 0⟩
        = feedList fl ((bases.drop (ll + gl)).take (fl - 1)) := rfl
    rw [hfeed1, hfeed2, hinv]
    have hc : bases.length - (ll + gl + fl - 1) = bases.length + 1 - (ll + gl + fl) := by
      omega
    rw [hc]

/-- Membership test of the accepted-anchor set (`AcceptedAnchors::IsAccepted`,
modelled from the spec §4.2: true iff the encoding is in the set); `none`
models a null `accepted_anchors` pointer, which accepts everything. -/
def accepts (anchors : Option (List Nat)) (x : Nat) : Bool :=
  match anchors with
  | none => true
  | some a => a.contains x

/-- Body of the per-position rediscovery scan inside
`extract_fafq_style_anchor_target_pairs`: rebuild the candidate leader at `i`,
compare it with the dictionary leader `ld`, rebuild the candidate follower,
and emit the pair when everything matches. -/
def rediscoverAt (ll gl fl ld : Nat) (bases : List Nat) (i : Nat) :
    Option (Nat × Nat) :=
  if winValidB (window bases i ll) = true then
    if encodeKmer ll (window bases i ll) = ld then
      if winValidB (window bases (i + ll + gl) fl) = true then
        some (ld, encodeKmer fl (window bases (i + ll + gl) fl))
      else none
    else none
  else none

/-- Pairs emitted for dictionary leader `ld` while re-scanning one read
(inner loop of `extract_fafq_style_anchor_target_pairs`). -/
def rediscoverRead (ll gl fl ld : Nat) (bases : List Nat) : List (Nat × Nat) :=
  (List.range (bases.length + 1 - (ll + gl + fl))).filterMap
    (rediscoverAt ll gl fl ld bases)

/-- Model of `CBarcodedCounter::extract_fafq_style_anchor_target_pairs` for one
CBC: first collect all leaders of the CBC's reads
(`enumerate_kmer_leaders_for_cbc` appends per read), then for every collected
leader that the anchor set accepts, re-scan every read of the CBC and emit one
pair per matching position. -/
def extractFafq (ll gl fl : Nat) (anchors : Option (List Nat))
    (reads : List (List Nat)) : List (Nat × Nat) :=
  (reads.flatMap (enumLeadersRead ll gl fl)).flatMap
    (fun ld => if accepts anchors ld then
      reads.flatMap (rediscoverRead ll gl fl ld) else [])

lemma rediscoverRead_fst (ll gl fl ld : Nat) (bases : List Nat) :
    ∀ pr ∈ rediscoverRead ll gl fl ld bases, pr.1 = ld := by
  intro pr hpr
  rw [rediscoverRead, List.mem_filterMap] at hpr
  obtain ⟨i, _, hi⟩ := hpr
  unfold rediscoverAt at hi
  split_ifs at hi with h1 h2 h3
  have h := Option.some.inj hi
  rw [← h]

lemma length_filterMap_countP (f : α → Option β) (l : List α) :
    (l.filterMap f).length = l.countP (fun a => (f a).isSome) := by
  induction l with
  | nil => simp
  | cons x l ih =>
      rw [List.filterMap_cons, List.countP_cons]
      cases hx : f x with
      | none => simp [hx, ih]
      | some b => simp [hx, ih]

lemma count_filterMap_countP [DecidableEq β] (f : α → Option β) (l : List α) (b : β) :
    (l.filterMap f).count b = l.countP (fun a => f a == some b) := by
  induction l with
  | nil => simp
  | cons x l ih =>
      rw [List.filterMap_cons, List.countP_cons]
      cases hx : f x with
      | none => simp [hx, ih]
      | some c =>
          by_cases hc : c = b
          · subst hc; simp [hx, List.count_cons, ih]
          · simp [hx, List.count_cons, hc, ih]

lemma countP_flatMap (p : β → Bool) (f : α → List β) (l : List α) :
    (l.flatMap f).countP p = (l.map (fun a => (f a).countP p)).sum := by
  induction l with
  | nil => simp
  | cons x l ih => simp [List.flatMap_cons, List.countP_append, ih]

lemma count_flatMap [DecidableEq β] (b : β) (f : α → List β) (l : List α) :
    (l.flatMap f).count b = (l.map (fun a => (f a).count b)).sum := by
  induction l with
  | nil => simp
  | cons x l ih => simp [List.flatMap_cons, List.count_append, ih]

lemma length_flatMap_sum (f : α → List β) (l : List α) :
    (l.flatMap f).length = (l.map (fun a => (f a).length)).sum := by
  induction l with
  | nil => simp
  | cons x l ih => simp [List.flatMap_cons, ih]

/-- A position produces a rediscovered pair for leader `ld` exactly when the
leader-enumeration pass emits `ld` at that position. -/
lemma rediscoverAt_isSome_iff (ll gl fl ld : Nat) (bases : List Nat) (i : Nat) :
    (rediscoverAt ll gl fl ld bases i).isSome = true
      ↔ emitAt ll gl fl bases i = some ld := by
  simp only [rediscoverAt, emitAt, validPosB, leaderAt]
  by_cases h1 : winValidB (window bases i ll) = true <;>
    by_cases h2 : encodeKmer ll (window bases i ll) = ld <;>
      by_cases h3 : winValidB (window bases (i + ll + gl) fl) = true <;>
        simp [h1, h2, h3]

/-- The number of occurrences of `ld` among the leaders collected from a read
equals the number of pairs the rediscovery scan emits for `ld` on that read. -/
lemma count_enum_eq_length_rediscover (ll gl fl ld : Nat) (bases : List Nat)
    (hll : 1 ≤ ll) (hfl : 1 ≤ fl) :
    (enumLeadersRead ll gl fl bases).count ld
      = (rediscoverRead ll gl fl ld bases).length := by
  rw [enumLeadersRead_eq ll gl fl bases hll hfl, rediscoverRead,
    count_filterMap_countP, length_filterMap_countP]
  apply List.countP_congr
  intro i _
  rw [beq_iff_eq, rediscoverAt_isSome_iff]

lemma sum_map_ite (l : List Nat) (X m : Nat) :
    (l.map (fun ld => if ld = X then m else 0)).sum = l.count X * m := by
  induction l with
  | nil => simp
  | cons a l ih =>
      rw [List.map_cons, List.sum_cons, ih, List.count_cons]
      by_cases h : a = X
      · subst h
        simp [Nat.add_mul]
        omega
      · have hba : (X == a) = false := by
          simp [Ne.symm h]
        simp [h, hba]

/-- Pairs rediscovered for leader `ld` all carry leader `ld`, so against a
query leader `X` they count fully or not at all. -/
lemma countP_rediscover_flatMap (ll gl fl ld X : Nat) (reads : List (List Nat)) :
    ((reads.flatMap (rediscoverRead ll gl fl ld)).countP (fun pr => pr.1 == X))
      = if ld = X then (reads.flatMap (rediscoverRead ll gl fl ld)).length
        else 0 := by
  by_cases h : ld = X
  · subst h
    rw [if_pos rfl]
    apply List.countP_eq_length.mpr
    intro pr hpr
    rw [List.mem_flatMap] at hpr
    obtain ⟨r, _, hr⟩ := hpr
    simp [rediscoverRead_fst ll gl fl ld r pr hr]
  · rw [if_neg h]
    apply List.countP_eq_zero.mpr
    intro pr hpr
    rw [List.mem_flatMap] at hpr
    obtain ⟨r, _, hr⟩ := hpr
    simp [rediscoverRead_fst ll gl fl ld r pr hr, h]

/-- Total rediscovered pairs for leader `X` over all reads of the CBC equal the
occurrences of `X` among the collected leaders. -/
lemma length_rediscover_eq_count (ll gl fl X : Nat) (reads : List (List Nat))
    (hll : 1 ≤ ll) (hfl : 1 ≤ fl) :
    (reads.flatMap (rediscoverRead ll gl fl X)).length
      = (reads.flatMap (enumLeadersRead ll gl fl)).count X := by
  rw [length_flatMap_sum, count_flatMap]
  congr 1
  apply List.map_congr_left
  intro r _
  exact (count_enum_eq_length_rediscover ll gl fl X r hll hfl).symm

/-- Counting characterization of `extract_fafq_style_anchor_target_pairs`: an
accepted leader value `X` occurring at `m` valid positions across the CBC's
reads yields `m * m` emitted pairs with leader `X`. -/
lemma extractFafq_countP_acc (ll gl fl X : Nat) (A : Option (List Nat))
    (reads : List (List Nat)) (hll : 1 ≤ ll) (hfl : 1 ≤ fl)
    (hX : accepts A X = true) :
    (extractFafq ll gl fl A reads).countP (fun pr => pr.1 == X)
      = ((reads.flatMap (enumLeadersRead ll gl fl)).count X)
        * ((reads.flatMap (enumLeadersRead ll gl fl)).count X) := by
  rw [extractFafq, countP_flatMap]
  have hmap : ((reads.flatMap (enumLeadersRead ll gl fl)).map
        (fun ld => ((if accepts A ld then
          reads.flatMap (rediscoverRead ll gl fl ld) else []).countP
            (fun pr => pr.1 == X))))
      = ((reads.flatMap (enumLeadersRead ll gl fl)).map
        (fun ld => if ld = X
          then (reads.flatMap (enumLeadersRead ll gl fl)).count X else 0)) := by
    apply List.map_congr_left
    intro ld _
    by_cases hacc : accepts A ld = true
    · rw [if_pos hacc, countP_rediscover_flatMap]
      by_cases hldX : ld = X
      · subst hldX
        rw [if_pos rfl, if_pos rfl]
        exact length_rediscover_eq_count ll gl fl ld reads hll hfl
      · rw [if_neg hldX, if_neg hldX]
    · rw [if_neg hacc]
      by_cases hldX : ld = X
      · subst hldX
        exact absurd hX hacc
      · simp [hldX]
  rw [hmap, sum_map_ite]

/-- A leader value the anchor set rejects never appears as the leader of an
emitted pair. -/
lemma extractFafq_countP_notacc (ll gl fl X : Nat) (A : Option (List Nat))
    (reads : List (List Nat)) (hX : accepts A X = false) :
    (extractFafq ll gl fl A reads).countP (fun pr => pr.1 == X) = 0 := by
  rw [extractFafq, countP_flatMap]
  apply List.sum_eq_zero
  intro x hx
  rw [List.mem_map] at hx
  obtain ⟨ld, _, hld⟩ := hx
  by_cases hacc : accepts A ld = true
  · rw [if_pos hacc] at hld
    rw [← hld, countP_rediscover_flatMap]
    have hldX : ld ≠ X := by
      intro hcon
      rw [hcon, hX] at hacc
      exact Bool.noConfusion hacc
    rw [if_neg hldX]
  · rw [if_neg hacc] at hld
    rw [← hld]
    rfl

/-- Comparison used to sort `(leader, follower)` pairs: lexicographic on the
leader then the follower (the `operator<` of `leader_follower_t`). -/
def lfLe (a b : Nat × Nat) : Prop := a.1 < b.1 ∨ (a.1 = b.1 ∧ a.2 ≤ b.2)

instance : DecidableRel lfLe := fun a b =>
  inferInstanceAs (Decidable (a.1 < b.1 ∨ (a.1 = b.1 ∧ a.2 ≤ b.2)))

instance : IsTotal (Nat × Nat) lfLe := ⟨by intro a b; unfold lfLe; omega⟩

instance : IsTrans (Nat × Nat) lfLe := ⟨by intro a b c; unfold lfLe; omega⟩

lemma lfLe_antisymm (a b : Nat × Nat) (h1 : lfLe a b) (h2 : lfLe b a) : a = b := by
  obtain ⟨a1, a2⟩ := a
  obtain ⟨b1, b2⟩ := b
  unfold lfLe at h1 h2
  simp only [Prod.mk.injEq]
  constructor <;> omega

/-- Sorting step of `sort_and_gather_kmer_pairs_for_cbc`.  The C++ code uses an
unstable `pdqsort`; since `lfLe` is a total antisymmetric order, every sorted
permutation of the input coincides with the insertion sort used here. -/
def sortPairs (l : List (Nat × Nat)) : List (Nat × Nat) :=
  List.insertionSort lfLe l

/-- Gather loop of `sort_and_gather_kmer_pairs_for_cbc`: `cur` and `cnt` are
the key and count of the last emitted record (`kmer_pair_counts.back()`); on an
equal consecutive pair the count is bumped (clamped to `max_count`, modelled
from the spec §4.4 — the counter type lives outside this repository), on a
change a new record starts with count 1. -/
def satGather (M : Nat) : (Nat × Nat) → Nat → List (Nat × Nat) → List ((Nat × Nat) × Nat)
  | cur, cnt, [] => [(cur, cnt)]
  | cur, cnt, x :: xs =>
      if x = cur then satGather M cur (min (cnt + 1) M) xs
      else (cur, cnt) :: satGather M x 1 xs

/-- Model of `CBarcodedCounter::sort_and_gather_kmer_pairs_for_cbc`: sort the
pair vector, then run-length gather it into `(pair, count)` records. -/
def sortGather (M : Nat) (pairs : List (Nat × Nat)) : List ((Nat × Nat) × Nat) :=
  match sortPairs pairs with
  | [] => []
  | h :: t => satGather M h 1 t

lemma sortGather_eq_nil (M : Nat) (pairs : List (Nat × Nat))
    (h : sortPairs pairs = []) : sortGather M pairs = [] := by
  unfold sortGather
  rw [h]

lemma sortGather_eq_cons (M : Nat) (pairs : List (Nat × Nat)) (hd : Nat × Nat)
    (t : List (Nat × Nat)) (h : sortPairs pairs = hd :: t) :
    sortGather M pairs = satGather M hd 1 t := by
  unfold sortGather
  rw [h]

lemma head_not_mem_tail (c x : Nat × Nat) (xs : List (Nat × Nat))
    (hs : List.Sorted lfLe (c :: x :: xs)) (hne : x ≠ c) : c ∉ x :: xs := by
  intro hmem
  rcases List.mem_cons.mp hmem with h | h
  · exact hne h.symm
  · have h1 : lfLe c x := (List.sorted_cons.mp hs).1 x (List.mem_cons_self x xs)
    have hs2 : List.Sorted lfLe (x :: xs) := (List.sorted_cons.mp hs).2
    have h2 : lfLe x c := (List.sorted_cons.mp hs2).1 c h
    exact hne (lfLe_antisymm x c h2 h1)

lemma satGather_key_mem (M : Nat) : ∀ (l : List (Nat × Nat)) (cur : Nat × Nat)
    (cnt : Nat) (v : Nat × Nat) (c : Nat), (v, c) ∈ satGather M cur cnt l →
    v = cur ∨ v ∈ l := by
  intro l
  induction l with
  | nil =>
      intro cur cnt v c h
      rw [satGather, List.mem_singleton] at h
      exact Or.inl (congrArg Prod.fst h)
  | cons x xs ih =>
      intro cur cnt v c h
      rw [satGather] at h
      by_cases hx : x = cur
      · rw [if_pos hx] at h
        rcases ih cur (min (cnt + 1) M) v c h with h1 | h1
        · exact Or.inl h1
        · exact Or.inr (List.mem_cons_of_mem x h1)
      · rw [if_neg hx] at h
        rcases List.mem_cons.mp h with h1 | h1
        · exact Or.inl (congrArg Prod.fst h1)
        · rcases ih x 1 v c h1 with h2 | h2
          · exact Or.inr (h2 ▸ List.mem_cons_self x xs)
          · exact Or.inr (List.mem_cons_of_mem x h2)

lemma satGather_keys (M : Nat) : ∀ (l : List (Nat × Nat)) (cur : Nat × Nat)
    (cnt : Nat), List.Sorted lfLe (cur :: l) →
    (satGather M cur cnt l).map Prod.fst = (cur :: l).dedup := by
  intro l
  induction l with
  | nil => intro cur cnt _; simp [satGather]
  | cons x xs ih =>
      intro cur cnt hs
      rw [satGather]
      by_cases hx : x = cur
      · subst hx
        rw [if_pos rfl, ih x (min (cnt + 1) M) (List.sorted_cons.mp hs).2,
          List.dedup_cons_of_mem (List.mem_cons_self x xs)]
      · rw [if_neg hx, List.map_cons,
          ih x 1 (List.sorted_cons.mp hs).2,
          List.dedup_cons_of_not_mem (head_not_mem_tail cur x xs hs hx)]

lemma sat_min_succ (m M : Nat) (hM : 1 ≤ M) :
    min (min m M + 1) M = min (m + 1) M := by omega

lemma satGather_counts (M : Nat) (hM : 1 ≤ M) : ∀ (l : List (Nat × Nat))
    (cur : Nat × Nat) (m : Nat), 1 ≤ m → List.Sorted lfLe (cur :: l) →
    ∀ (v : Nat × Nat) (c : Nat), (v, c) ∈ satGather M cur (min m M) l →
    c = min ((if v = cur then m else 0) + l.count v) M := by
  intro l
  induction l with
  | nil =>
      intro cur m _ _ v c h
      rw [satGather, List.mem_singleton] at h
      have hv : v = cur := congrArg Prod.fst h
      have hc : c = min m M := congrArg Prod.snd h
      rw [hv, hc, if_pos rfl]
      simp
  | cons x xs ih =>
      intro cur m hm hs v c h
      rw [satGather] at h
      by_cases hx : x = cur
      · subst hx
        rw [if_pos rfl, sat_min_succ m M hM] at h
        have hc := ih x (m + 1) (by omega) (List.sorted_cons.mp hs).2 v c h
        by_cases hv : v = x
        · subst hv
          rw [if_pos rfl] at hc
          have hcnt : (v :: xs).count v = xs.count v + 1 := by
            simp [List.count_cons]
          rw [hc, if_pos rfl, hcnt]
          congr 1
          omega
        · rw [if_neg hv] at hc
          have hxv : x ≠ v := fun hcon => hv hcon.symm
          have hcnt : (x :: xs).count v = xs.count v := by
            simp [List.count_cons, hv, hxv]
          rw [hc, if_neg hv, hcnt]
      · rw [if_neg hx] at h
        rcases List.mem_cons.mp h with h1 | h1
        · have hv : v = cur := congrArg Prod.fst h1
          have hc : c = min m M := congrArg Prod.snd h1
          have hcnt : (x :: xs).count cur = 0 :=
            List.count_eq_zero_of_not_mem (head_not_mem_tail cur x xs hs hx)
          rw [hv, hc, if_pos rfl, hcnt]
          omega
        · have h1M : (1 : Nat) = min 1 M := by omega
          rw [h1M] at h1
          have hc := ih x 1 (by omega) (List.sorted_cons.mp hs).2 v c h1
          have hvcur : v ≠ cur := by
            intro hcon
            rcases satGather_key_mem M xs x (min 1 M) v c h1 with h2 | h2
            · exact hx (h2.symm.trans hcon)
            · exact (head_not_mem_tail cur x xs hs hx)
                (hcon ▸ List.mem_cons_of_mem x h2)
          rw [hc, if_neg hvcur]
          by_cases hv : v = x
          · subst hv
            have hcnt : (v :: xs).count v = xs.count v + 1 := by
              simp [List.count_cons]
            rw [hcnt, if_pos rfl]
            congr 1
            omega
          · have hxv : x ≠ v := fun hcon => hv hcon.symm
            have hcnt : (x :: xs).count v = xs.count v := by
              simp [List.count_cons, hv, hxv]
            rw [hcnt, if_neg hv]

lemma satGather_sum (M : Nat) (hM : 1 ≤ M) : ∀ (l : List (Nat × Nat))
    (cur : Nat × Nat) (m : Nat), 1 ≤ m → m + l.count cur ≤ M →
    (∀ v, l.count v ≤ M) → List.Sorted lfLe (cur :: l) →
    ((satGather M cur (min m M) l).map (fun t => t.2)).sum = m + l.length := by
  intro l
  induction l with
  | nil =>
      intro cur m hm hbound _ _
      rw [satGather]
      simp
      omega
  | cons x xs ih =>
      intro cur m hm hbound hall hs
      rw [satGather]
      by_cases hx : x = cur
      · subst hx
        rw [if_pos rfl, sat_min_succ m M hM]
        have hcnt : (x :: xs).count x = xs.count x + 1 := by
          simp [List.count_cons]
        have hb2 : (m + 1) + xs.count x ≤ M := by
          rw [hcnt] at hbound
          omega
        have hall2 : ∀ v, xs.count v ≤ M := by
          intro v
          have h1 := hall v
          have h2 : xs.count v ≤ (x :: xs).count v := by
            rw [List.count_cons]
            omega
          omega
        rw [ih x (m + 1) (by omega) hb2 hall2 (List.sorted_cons.mp hs).2]
        simp
        omega
      · rw [if_neg hx, List.map_cons, List.sum_cons]
        have hcnt : (x :: xs).count x = xs.count x + 1 := by
          simp [List.count_cons]
        have hb2 : 1 + xs.count x ≤ M := by
          have h1 := hall x
          omega
        have hall2 : ∀ v, xs.count v ≤ M := by
          intro v
          have h1 := hall v
          have h2 : xs.count v ≤ (x :: xs).count v := by
            rw [List.count_cons]
            omega
          omega
        have h1M : (1 : Nat) = min 1 M := by omega
        rw [h1M, ih x 1 (by omega) hb2 hall2 (List.sorted_cons.mp hs).2]
        have hmM : min m M = m := by omega
        rw [hmM]
        simp
        omega

lemma perm_count_eq (l1 l2 : List (Nat × Nat)) (h : List.Perm l1 l2)
    (v : Nat × Nat) : l1.count v = l2.count v :=
  h.countP_eq (fun x => x == v)

lemma sortGather_counts (M : Nat) (pairs : List (Nat × Nat)) (hM : 1 ≤ M) :
    ∀ (v : Nat × Nat) (c : Nat), (v, c) ∈ sortGather M pairs →
    c = min (pairs.count v) M := by
  intro v c hvc
  rcases hsp : sortPairs pairs with _ | ⟨hd, t⟩
  · rw [sortGather_eq_nil M pairs hsp] at hvc
    exact absurd hvc (List.not_mem_nil _)
  · rw [sortGather_eq_cons M pairs hd t hsp] at hvc
    have hsorted : List.Sorted lfLe (hd :: t) := by
      rw [← hsp]
      exact List.sorted_insertionSort lfLe pairs
    have h1M : (1 : Nat) = min 1 M := by omega
    rw [h1M] at hvc
    have hc := satGather_counts M hM t hd 1 (by omega) hsorted v c hvc
    have hcount : pairs.count v = (hd :: t).count v := by
      rw [← hsp]
      exact (perm_count_eq (sortPairs pairs) pairs
        (List.perm_insertionSort lfLe pairs) v).symm
    have hcc : (hd :: t).count v = (if v = hd then 1 else 0) + t.count v := by
      rw [List.count_cons]
      by_cases hv : v = hd
      · subst hv
        simp [List.count_cons]
        omega
      · have hxv : hd ≠ v := fun hcon => hv hcon.symm
        simp [hv, hxv]
    rw [hc, hcount, hcc]

lemma sortGather_keys_perm (M : Nat) (pairs : List (Nat × Nat)) :
    ((sortGather M pairs).map Prod.fst).Perm pairs.dedup := by
  rcases hsp : sortPairs pairs with _ | ⟨hd, t⟩
  · rw [sortGather_eq_nil M pairs hsp]
    have hperm : (sortPairs pairs).Perm pairs := List.perm_insertionSort lfLe pairs
    rw [hsp] at hperm
    rw [hperm.symm.eq_nil]
    simp
  · rw [sortGather_eq_cons M pairs hd t hsp]
    have hsorted : List.Sorted lfLe (hd :: t) := by
      rw [← hsp]
      exact List.sorted_insertionSort lfLe pairs
    rw [satGather_keys M t hd 1 hsorted, ← hsp]
    exact (List.perm_insertionSort lfLe pairs).dedup

lemma sortGather_sum_eq (M : Nat) (pairs : List (Nat × Nat)) (hM : 1 ≤ M)
    (hall : ∀ v, pairs.count v ≤ M) :
    ((sortGather M pairs).map (fun t => t.2)).sum = pairs.length := by
  rcases hsp : sortPairs pairs with _ | ⟨hd, t⟩
  · rw [sortGather_eq_nil M pairs hsp]
    have hperm : (sortPairs pairs).Perm pairs := List.perm_insertionSort lfLe pairs
    rw [hsp] at hperm
    rw [hperm.symm.eq_nil]
    rfl
  · rw [sortGather_eq_cons M pairs hd t hsp]
    have hsorted : List.Sorted lfLe (hd :: t) := by
      rw [← hsp]
      exact List.sorted_insertionSort lfLe pairs
    have hperm : (sortPairs pairs).Perm pairs := List.perm_insertionSort lfLe pairs
    have hcount : ∀ v, (hd :: t).count v = pairs.count v := by
      intro v
      rw [← hsp]
      exact perm_count_eq (sortPairs pairs) pairs hperm v
    have hb2 : 1 + t.count hd ≤ M := by
      have h1 := hall hd
      have h2 := hcount hd
      rw [List.count_cons] at h2
      simp at h2
      omega
    have hall2 : ∀ v, t.count v ≤ M := by
      intro v
      have h1 := hall v
      have h2 := hcount v
      rw [List.count_cons] at h2
      omega
    have h1M : (1 : Nat) = min 1 M := by omega
    rw [h1M, satGather_sum M hM t hd 1 (by omega) hb2 hall2 hsorted]
    have hlen : pairs.length = (hd :: t).length := by
      rw [← hsp]
      exact hperm.length_eq.symm
    rw [hlen, List.length_cons]
    omega

lemma sortGather_mem_exists (M : Nat) (pairs : List (Nat × Nat))
    (v : Nat × Nat) (hv : v ∈ pairs) : ∃ c, (v, c) ∈ sortGather M pairs := by
  have h1 : v ∈ pairs.dedup := List.mem_dedup.mpr hv
  have h2 : v ∈ (sortGather M pairs).map Prod.fst :=
    ((sortGather_keys_perm M pairs).mem_iff).mpr h1
  rw [List.mem_map] at h2
  obtain ⟨t, ht, hfst⟩ := h2
  refine ⟨t.2, ?_⟩
  rw [← hfst]
  simpa using ht

/-- One output record (`bkc_record_t`): sample id, barcode, leader, follower,
count. -/
structure BkcRecord where
  sample_id : Nat
  barcode : Nat
  leader : Nat
  follower : Nat
  count : Nat
deriving DecidableEq

/-- Stable 64-bit mix of `refresh::MurMur64Hash` (modelled from the spec §4.5:
a MurmurHash3-finalizer-style mix; the library header lives outside this
repository).  A pure function of its 64-bit input. -/
def murmur64 (x : Nat) : Nat :=
  let h0 := x % 2 ^ 64
  let h1 := Nat.xor h0 (h0 / 2 ^ 33)
  let h2 := h1 * 0xff51afd7ed558ccd % 2 ^ 64
  let h3 := Nat.xor h2 (h2 / 2 ^ 33)
  let h4 := h3 * 0xc4ceb9fe1a85ec53 % 2 ^ 64
  Nat.xor h4 (h4 / 2 ^ 33)

/-- Shard index of a record: `hash(leader) mod no_splits`, a function of the
leader encoding only (`store_kmer_pairs`, line `mh(x.leader) % no_splits`). -/
def shardOf (noSplits leader : Nat) : Nat := murmur64 leader % noSplits

lemma shardOf_lt (noSplits leader : Nat) (h : 1 ≤ noSplits) :
    shardOf noSplits leader < noSplits := Nat.mod_lt _ (by omega)

/-- Model of `CBarcodedCounter::store_kmer_pairs`: push each counted triple
into the per-shard record buffer selected by the leader hash, in order. -/
def storeKmerPairs (sampleId cbc noSplits : Nat) :
    List ((Nat × Nat) × Nat) → (Nat → List BkcRecord) → Nat → List BkcRecord
  | [], bufs => bufs
  | x :: xs, bufs =>
      storeKmerPairs sampleId cbc noSplits xs
        (fun j => if j = shardOf noSplits x.1.1
          then bufs j ++ [⟨sampleId, cbc, x.1.1, x.1.2, x.2⟩]
          else bufs j)

/-- Routing characterization of `store_kmer_pairs`: buffer `i` receives,
after its previous content, exactly the records of the triples whose leader
hashes to shard `i`, in input order. -/
lemma storeKmerPairs_spec (sampleId cbc noSplits : Nat) :
    ∀ (triples : List ((Nat × Nat) × Nat)) (bufs : Nat → List BkcRecord) (i : Nat),
    storeKmerPairs sampleId cbc noSplits triples bufs i
      = bufs i ++ (triples.filter (fun x => shardOf noSplits x.1.1 == i)).map
          (fun x => ⟨sampleId, cbc, x.1.1, x.1.2, x.2⟩) := by
  intro triples
  induction triples with
  | nil => intro bufs i; simp [storeKmerPairs]
  | cons x xs ih =>
      intro bufs i
      rw [storeKmerPairs, ih, List.filter_cons]
      by_cases hsh : shardOf noSplits x.1.1 = i
      · have hb : (shardOf noSplits x.1.1 == i) = true := by simp [hsh]
        rw [hb, if_pos rfl, if_pos hsh.symm, List.map_cons, List.append_assoc,
          List.singleton_append]
      · have hb : (shardOf noSplits x.1.1 == i) = false := by simp [hsh]
        rw [hb]
        simp only [Bool.false_eq_true, if_false]
        rw [if_neg (fun hcon => hsh hcon.symm)]

/-- Per-CBC flush phase of the worker loop in `count_kmer_pairs`: every shard
buffer that reached `max_records_in_buffer` is packed, handed to its sink and
cleared. -/
def cbcFlush (noSplits maxRec : Nat) (bufs : Nat → List BkcRecord)
    (sinks : Nat → List (List BkcRecord)) :
    (Nat → List BkcRecord) × (Nat → List (List BkcRecord)) :=
  (fun i => if i < noSplits ∧ maxRec ≤ (bufs i).length then [] else bufs i,
   fun i => if i < noSplits ∧ maxRec ≤ (bufs i).length
     then sinks i ++ [bufs i] else sinks i)

/-- One iteration of the worker loop of `count_kmer_pairs` at the record
level: store all counted triples of the claimed CBC, then run the flush
phase.  A batch is a pair (CBC, counted triples). -/
def cbcStep (sampleId noSplits maxRec : Nat)
    (st : (Nat → List BkcRecord) × (Nat → List (List BkcRecord)))
    (batch : Nat × List ((Nat × Nat) × Nat)) :
    (Nat → List BkcRecord) × (Nat → List (List BkcRecord)) :=
  cbcFlush noSplits maxRec
    (storeKmerPairs sampleId batch.1 noSplits batch.2 st.1) st.2

/-- Worker loop over all claimed CBC batches, starting from empty buffers and
sinks. -/
def runLoop (sampleId noSplits maxRec : Nat)
    (batches : List (Nat × List ((Nat × Nat) × Nat))) :
    (Nat → List BkcRecord) × (Nat → List (List BkcRecord)) :=
  batches.foldl (cbcStep sampleId noSplits maxRec) (fun _ => [], fun _ => [])

/-- Final flush after the work cursor is exhausted: every shard buffer is
packed and handed to its sink unconditionally. -/
def finalFlush (noSplits : Nat)
    (st : (Nat → List BkcRecord) × (Nat → List (List BkcRecord))) :
    Nat → List (List BkcRecord) :=
  fun i => if i < noSplits then st.2 i ++ [st.1 i] else st.2 i

/-- Whole worker run: loop over the batches, then final flush; the result maps
each shard to the packed blocks its sink received, each block being the buffer
content at pack time. -/
def runDriver (sampleId noSplits maxRec : Nat)
    (batches : List (Nat × List ((Nat × Nat) × Nat))) :
    Nat → List (List BkcRecord) :=
  finalFlush noSplits (runLoop sampleId noSplits maxRec batches)

/-- Invariant of the worker loop: right after each per-CBC flush phase, every
shard buffer holds strictly fewer than `max_records_in_buffer` records. -/
lemma runLoop_bufs_lt (sampleId noSplits maxRec : Nat)
    (hn : 1 ≤ noSplits) (hm : 1 ≤ maxRec) :
    ∀ (batches : List (Nat × List ((Nat × Nat) × Nat)))
      (st : (Nat → List BkcRecord) × (Nat → List (List BkcRecord))),
    (∀ i, (st.1 i).length < maxRec) →
    ∀ i, ((batches.foldl (cbcStep sampleId noSplits maxRec) st).1 i).length
      < maxRec := by
  intro batches
  induction batches with
  | nil => intro st h i; exact h i
  | cons b bs ih =>
      intro st h i
      rw [List.foldl_cons]
      apply ih
      intro j
      show ((cbcFlush noSplits maxRec
        (storeKmerPairs sampleId b.1 noSplits b.2 st.1) st.2).1 j).length < maxRec
      simp only [cbcFlush]
      by_cases hc : j < noSplits
          ∧ maxRec ≤ ((storeKmerPairs sampleId b.1 noSplits b.2 st.1) j).length
      · rw [if_pos hc]
        simpa using hm
      · rw [if_neg hc]
        by_cases hj : j < noSplits
        · push_neg at hc
          have := hc hj
          omega
        · rw [storeKmerPairs_spec]
          have hfilter : (b.2.filter (fun x => shardOf noSplits x.1.1 == j)) = [] := by
            rw [List.filter_eq_nil_iff]
            intro x _
            have hlt := shardOf_lt noSplits x.1.1 hn
            simp only [beq_iff_eq]
            omega
          rw [hfilter, List.map_nil, List.append_nil]
          exact h j

/-- Character loop of `prepare_anchor_dict` over one dictionary line: reject a
byte whose code exceeds 3, otherwise shift the accumulator by two bits and add
the code (`anchor <<= 2; anchor += x`, on a 64-bit `kmer_t`). -/
def encodeLine : List Nat → Nat → Option Nat
  | [], a => some a
  | c :: cs, a =>
      if char2bits c > 3 then none
      else encodeLine cs ((a * 4 + char2bits c) % 2 ^ 64)

/-- MSB-first 2-bit encoding of a well-formed dictionary line, as built by
`prepare_anchor_dict`. -/
def encodeAnchor (s : List Nat) : Nat :=
  s.foldl (fun a c => (a * 4 + char2bits c) % 2 ^ 64) 0

/-- Model of `CBarcodedCounter::prepare_anchor_dict`: check every line's
length against `leader_len`, encode it rejecting non-ACGT bytes, and return
the list of encodings handed to `AcceptedAnchors`; `none` models the `false`
(failure) return. -/
def prepare_anchor_dict (ll : Nat) : List (List Nat) → Option (List Nat)
  | [] => some []
  | s :: rest =>
      if s.length ≠ ll then none
      else match encodeLine s 0 with
        | none => none
        | some a => (prepare_anchor_dict ll rest).map (fun l => a :: l)

/-- Model of `CBarcodedCounter::kmer_to_string`: peel `len` bases off the low
bits of the encoding (least-significant base first), then reverse.  Characters
are byte values, `"ACGT"[c]`. -/
def kmerToStrAux : Nat → Nat → List Nat
  | _, 0 => []
  | k, len + 1 => [65, 67, 71, 84].getD (k % 4) 0 :: kmerToStrAux (k / 4) len

/-- Byte string produced by `kmer_to_string(kmer, len)`. -/
def kmer_to_string (k len : Nat) : List Nat := (kmerToStrAux k len).reverse

lemma encodeLine_some (s : List Nat) : ∀ a : Nat,
    (∀ c ∈ s, char2bits c < 4) →
    encodeLine s a = some (s.foldl (fun a c => (a * 4 + char2bits c) % 2 ^ 64) a) := by
  induction s with
  | nil => intro a _; rfl
  | cons c cs ih =>
      intro a hval
      have hc : char2bits c < 4 := hval c (List.mem_cons_self c cs)
      rw [encodeLine, if_neg (by omega)]
      rw [ih ((a * 4 + char2bits c) % 2 ^ 64) (fun d hd => hval d (List.mem_cons_of_mem c hd))]
      rfl

lemma encodeLine_isSome_iff (s : List Nat) : ∀ a : Nat,
    (encodeLine s a).isSome = true ↔ ∀ c ∈ s, char2bits c < 4 := by
  induction s with
  | nil => intro a; simp [encodeLine]
  | cons c cs ih =>
      intro a
      rw [encodeLine]
      by_cases hc : char2bits c > 3
      · rw [if_pos hc]
        simp only [Option.isSome_none, Bool.false_eq_true, false_iff]
        intro hcon
        have := hcon c (List.mem_cons_self c cs)
        omega
      · rw [if_neg hc, ih]
        constructor
        · intro hall d hd
          rcases List.mem_cons.mp hd with h | h
          · rw [h]; omega
          · exact hall d h
        · intro hall d hd
          exact hall d (List.mem_cons_of_mem c hd)

lemma prepare_isSome_iff (ll : Nat) : ∀ vec : List (List Nat),
    (prepare_anchor_dict ll vec).isSome = true
      ↔ ∀ s ∈ vec, s.length = ll ∧ ∀ c ∈ s, char2bits c < 4 := by
  intro vec
  induction vec with
  | nil => simp [prepare_anchor_dict]
  | cons s rest ih =>
      rw [prepare_anchor_dict]
      by_cases hlen : s.length = ll
      · rw [if_neg (by omega)]
        by_cases hval : ∀ c ∈ s, char2bits c < 4
        · rw [encodeLine_some s 0 hval]
          simp only [Option.isSome_map']
          rw [ih]
          constructor
          · intro hrest d hd
            rcases List.mem_cons.mp hd with h | h
            · rw [h]; exact ⟨hlen, hval⟩
            · exact hrest d h
          · intro hall d hd
            exact hall d (List.mem_cons_of_mem s hd)
        · have hnone : encodeLine s 0 = none := by
            cases henc : encodeLine s 0 with
            | none => rfl
            | some a =>
                have : (encodeLine s 0).isSome = true := by rw [henc]; rfl
                rw [encodeLine_isSome_iff] at this
                exact absurd this hval
          rw [hnone]
          simp only [Option.isSome_none, Bool.false_eq_true, false_iff]
          intro hcon
          exact hval (hcon s (List.mem_cons_self s rest)).2
      · rw [if_pos (by omega)]
        simp only [Option.isSome_none, Bool.false_eq_true, false_iff]
        intro hcon
        exact hlen (hcon s (List.mem_cons_self s rest)).1

lemma prepare_some_eq (ll : Nat) : ∀ (vec : List (List Nat)) (res : List Nat),
    prepare_anchor_dict ll vec = some res → res = vec.map encodeAnchor := by
  intro vec
  induction vec with
  | nil =>
      intro res h
      rw [prepare_anchor_dict] at h
      simpa using (Option.some.inj h).symm
  | cons s rest ih =>
      intro res h
      rw [prepare_anchor_dict] at h
      by_cases hlen : s.length = ll
      · rw [if_neg (by omega)] at h
        cases henc : encodeLine s 0 with
        | none => rw [henc] at h; exact Option.noConfusion h
        | some a =>
            rw [henc] at h
            cases hrest : prepare_anchor_dict ll rest with
            | none => rw [hrest] at h; exact Option.noConfusion h
            | some l =>
                rw [hrest] at h
                have hres : res = a :: l := (Option.some.inj h).symm
                have hval : ∀ c ∈ s, char2bits c < 4 := by
                  have : (encodeLine s 0).isSome = true := by rw [henc]; rfl
                  rwa [encodeLine_isSome_iff] at this
                have ha : a = encodeAnchor s := by
                  have := encodeLine_some s 0 hval
                  rw [henc] at this
                  exact Option.some.inj this
                rw [hres, ha, List.map_cons, ih l hrest]
      · rw [if_pos (by omega)] at h
        exact Option.noConfusion h

lemma polyAcc_lt (s : List Nat) (hval : ∀ c ∈ s, char2bits c < 4) :
    polyAcc 0 s < 4 ^ s.length := by
  induction s using List.reverseRecOn with
  | nil => simp [polyAcc]
  | append_singleton s c ih =>
      rw [polyAcc_append]
      have h1 : polyAcc 0 s < 4 ^ s.length :=
        ih (fun d hd => hval d (List.mem_append.mpr (Or.inl hd)))
      have h2 : char2bits c < 4 :=
        hval c (List.mem_append.mpr (Or.inr (List.mem_singleton.mpr rfl)))
      have h3 : (s ++ [c]).length = s.length + 1 := by
        rw [List.length_append, List.length_singleton]
      rw [h3, pow_succ]
      omega

/-- On a valid line of length at most 32, the 64-bit wrap-around in
`prepare_anchor_dict` never fires. -/
lemma encodeAnchor_eq_polyAcc (s : List Nat) (hval : ∀ c ∈ s, char2bits c < 4)
    (hlen : s.length ≤ 32) : encodeAnchor s = polyAcc 0 s := by
  induction s using List.reverseRecOn with
  | nil => rfl
  | append_singleton s c ih =>
      have hval' : ∀ c ∈ s, char2bits c < 4 :=
        fun d hd => hval d (List.mem_append.mpr (Or.inl hd))
      have hlen1 : s.length + 1 ≤ 32 := by
        have := hlen
        rw [List.length_append, List.length_singleton] at this
        omega
      have hlen' : s.length ≤ 32 := by omega
      have h1 : encodeAnchor (s ++ [c])
          = (encodeAnchor s * 4 + char2bits c) % 2 ^ 64 := by
        simp [encodeAnchor, List.foldl_append]
      have h2 : char2bits c < 4 :=
        hval c (List.mem_append.mpr (Or.inr (List.mem_singleton.mpr rfl)))
      have h3 : polyAcc 0 s * 4 + char2bits c < 2 ^ 64 := by
        have hb := polyAcc_lt s hval'
        have hp : (4 : Nat) ^ s.length * 4 ≤ 4 ^ 32 := by
          have : (4 : Nat) ^ (s.length + 1) ≤ 4 ^ 32 :=
            Nat.pow_le_pow_right (by norm_num) (by omega)
          rw [pow_succ] at this
          omega
        have heq : (4 : Nat) ^ 32 = 2 ^ 64 := by norm_num
        omega
      rw [h1, ih hval' hlen', Nat.mod_eq_of_lt h3, polyAcc_append]

lemma acgt_byte_valid (c : Nat) (hc : c ∈ [65, 67, 71, 84]) :
    char2bits c < 4 := by
  fin_cases hc <;> decide

lemma kmer_roundtrip_poly : ∀ s : List Nat, (∀ c ∈ s, c ∈ [65, 67, 71, 84]) →
    kmer_to_string (polyAcc 0 s) s.length = s := by
  intro s
  induction s using List.reverseRecOn with
  | nil => intro _; rfl
  | append_singleton s c ih =>
      intro hmem
      have hmem' : ∀ d ∈ s, d ∈ [65, 67, 71, 84] :=
        fun d hd => hmem d (List.mem_append.mpr (Or.inl hd))
      have hc : c ∈ [65, 67, 71, 84] :=
        hmem c (List.mem_append.mpr (Or.inr (List.mem_singleton.mpr rfl)))
      have hcv : char2bits c < 4 := acgt_byte_valid c hc
      have hlen : (s ++ [c]).length = s.length + 1 := by
        rw [List.length_append, List.length_singleton]
      rw [hlen, polyAcc_append, kmer_to_string, kmerToStrAux]
      have hmod : (polyAcc 0 s * 4 + char2bits c) % 4 = char2bits c := by
        rw [Nat.mul_comm (polyAcc 0 s) 4, Nat.mul_add_mod]
        exact Nat.mod_eq_of_lt hcv
      have hdiv : (polyAcc 0 s * 4 + char2bits c) / 4 = polyAcc 0 s := by
        rw [Nat.mul_comm (polyAcc 0 s) 4, Nat.mul_add_div (by norm_num)]
        rw [Nat.div_eq_of_lt hcv]
        omega
      have hchr : [65, 67, 71, 84].getD (char2bits c) 0 = c := by
        fin_cases hc <;> rfl
      rw [hmod, hdiv, hchr, List.reverse_cons]
      have := ih hmem'
      rw [kmer_to_string] at this
      rw [this]

/-- Round-trip of the dictionary 2-bit encoding through `kmer_to_string`. -/
lemma kmer_roundtrip (s : List Nat) (hmem : ∀ c ∈ s, c ∈ [65, 67, 71, 84])
    (hlen : s.length ≤ 32) :
    kmer_to_string (encodeAnchor s) s.length = s := by
  rw [encodeAnchor_eq_polyAcc s (fun c hc => acgt_byte_valid c (hmem c hc)) hlen]
  exact kmer_roundtrip_poly s hmem

set_option maxRecDepth 4096 in
/-- Claim C7: the 256-entry base-decoding table maps 'A' (65) and 'a' (97) to 0,
'C' (67) and 'c' (99) to 1, 'G' (71) and 'g' (103) to 2, 'T' (84) and 't' (116)
to 3, and every other byte value — including 'N' (78) — to a sentinel value of
at least 4. -/
theorem claim_C7 :
    char2bits 65 = 0 ∧ char2bits 97 = 0 ∧ char2bits 67 = 1 ∧ char2bits 99 = 1
      ∧ char2bits 71 = 2 ∧ char2bits 103 = 2 ∧ char2bits 84 = 3
      ∧ char2bits 116 = 3 ∧ 4 ≤ char2bits 78
      ∧ ∀ c : Fin 256,
          (4 ≤ char2bits c.val ↔ c.val ∉ [65, 97, 67, 99, 71, 103, 84, 116]) := by
  decide

/-- Claim C8: building the anchor dictionary fails exactly when some line has
length different from `leader_len` or contains a byte other than
A/C/G/T/a/c/g/t; on success the accepted set is the list of MSB-first 2-bit
encodings of the lines, so it contains the encoding of every line. -/
theorem claim_C8 (ll : Nat) (vec : List (List Nat)) :
    ((prepare_anchor_dict ll vec).isSome = true
        ↔ ∀ s ∈ vec, s.length = ll
            ∧ ∀ c ∈ s, c ∈ [65, 97, 67, 99, 71, 103, 84, 116])
      ∧ ∀ res, prepare_anchor_dict ll vec = some res →
          res = vec.map encodeAnchor ∧ ∀ s ∈ vec, encodeAnchor s ∈ res := by
  constructor
  · rw [prepare_isSome_iff]
    constructor
    · intro h s hs
      obtain ⟨h1, h2⟩ := h s hs
      exact ⟨h1, fun c hc => (char2bits_lt_iff c).mp (h2 c hc)⟩
    · intro h s hs
      obtain ⟨h1, h2⟩ := h s hs
      exact ⟨h1, fun c hc => (char2bits_lt_iff c).mpr (h2 c hc)⟩
  · intro res hres
    have heq := prepare_some_eq ll vec res hres
    refine ⟨heq, fun s hs => ?_⟩
    rw [heq]
    exact List.mem_map_of_mem encodeAnchor hs

/-- Witness for claim C8 at the dictionary ["AC"] with leader length 2. -/
theorem claim_C8_witness :
    ((prepare_anchor_dict 2 [[65, 67]]).isSome = true
        ↔ ∀ s ∈ [[65, 67]], s.length = 2
            ∧ ∀ c ∈ s, c ∈ [65, 97, 67, 99, 71, 103, 84, 116])
      ∧ ∀ res, prepare_anchor_dict 2 [[65, 67]] = some res →
          res = [[65, 67]].map encodeAnchor
            ∧ ∀ s ∈ [[65, 67]], encodeAnchor s ∈ res :=
  claim_C8 2 [[65, 67]]

/-- Claim C9: for a string over {A,C,G,T} of length between 1 and 32, decoding
its MSB-first 2-bit encoding (as built in `prepare_anchor_dict`) with
`kmer_to_string` yields the string back exactly. -/
theorem claim_C9 (s : List Nat) (hmem : ∀ c ∈ s, c ∈ [65, 67, 71, 84])
    (hlen1 : 1 ≤ s.length) (hlen2 : s.length ≤ 32) :
    kmer_to_string (encodeAnchor s) s.length = s :=
  kmer_roundtrip s hmem hlen2

/-- Witness for claim C9 at the string "ACGT". -/
theorem claim_C9_witness :
    kmer_to_string (encodeAnchor [65, 67, 71, 84]) 4 = [65, 67, 71, 84] :=
  claim_C9 [65, 67, 71, 84] (by decide) (by decide) (by decide)

/-- Claim C5: `store_kmer_pairs` routes every counted triple to the shard
buffer at index `murmur64(leader) mod no_splits`: buffer `i` receives exactly
the records of the triples whose leader hashes to `i`, in order, after its
previous content.  The shard index is a pure function of the leader encoding
and `no_splits` alone, hence identical for the same leader across runs. -/
theorem claim_C5 (sampleId cbc noSplits : Nat)
    (triples : List ((Nat × Nat) × Nat)) (bufs : Nat → List BkcRecord)
    (i : Nat) :
    storeKmerPairs sampleId cbc noSplits triples bufs i
      = bufs i ++ (triples.filter (fun x => shardOf noSplits x.1.1 == i)).map
          (fun x => ⟨sampleId, cbc, x.1.1, x.1.2, x.2⟩) :=
  storeKmerPairs_spec sampleId cbc noSplits triples bufs i

/-- Claim C6 counterexample: with `max_records_in_buffer = 2` and a single CBC
whose three counted triples all land in the only shard, the shard buffer holds
three records when it is packed and flushed — more than the threshold — so a
packed block of 3 > 2 records reaches the sink. -/
theorem claim_C6_counterexample :
    ∃ blk ∈ runDriver 0 1 2 [(0, [((0, 0), 1), ((1, 0), 1), ((2, 0), 1)])] 0,
      2 < blk.length := by
  decide

/-- Claim C6 (amended): a shard buffer may exceed `max_records_in_buffer`
while a single CBC's records are being stored, since the flush check only runs
after the whole CBC; what holds is that right after each per-CBC flush phase
every per-thread per-shard buffer holds strictly fewer than
`max_records_in_buffer` records. -/
theorem claim_C6_amended (sampleId noSplits maxRec : Nat)
    (batches : List (Nat × List ((Nat × Nat) × Nat)))
    (hn : 1 ≤ noSplits) (hm : 1 ≤ maxRec) (i : Nat) :
    ((runLoop sampleId noSplits maxRec batches).1 i).length < maxRec := by
  rw [runLoop]
  exact runLoop_bufs_lt sampleId noSplits maxRec hn hm batches
    (fun _ => [], fun _ => []) (fun j => by simpa using hm) i

/-- Witness for the amended claim C6 at the counterexample run. -/
theorem claim_C6_witness :
    ((runLoop 0 1 2 [(0, [((0, 0), 1), ((1, 0), 1), ((2, 0), 1)])]).1 0).length
      < 2 :=
  claim_C6_amended 0 1 2 [(0, [((0, 0), 1), ((1, 0), 1), ((2, 0), 1)])]
    (by decide) (by decide) 0

/-- Claim C3: `sort_and_gather_kmer_pairs_for_cbc` produces one triple per
distinct input pair (its keys are a permutation of the deduplicated input),
each count is the input multiplicity clamped to `max_count`, the number of
triples equals the number of distinct pairs, and when no multiplicity exceeds
`max_count` the counts sum to the input length. -/
theorem claim_C3 (pairs : List (Nat × Nat)) (M : Nat) (hM : 1 ≤ M) :
    ((sortGather M pairs).map Prod.fst).Perm pairs.dedup
      ∧ (∀ (v : Nat × Nat) (c : Nat), (v, c) ∈ sortGather M pairs →
          c = min (pairs.count v) M)
      ∧ (sortGather M pairs).length = pairs.dedup.length
      ∧ ((∀ v, pairs.count v ≤ M) →
          ((sortGather M pairs).map (fun t => t.2)).sum = pairs.length) := by
  refine ⟨sortGather_keys_perm M pairs, sortGather_counts M pairs hM, ?_, ?_⟩
  · have h := (sortGather_keys_perm M pairs).length_eq
    rw [List.length_map] at h
    exact h
  · intro hall
    exact sortGather_sum_eq M pairs hM hall

/-- Witness for claim C3 at a three-pair input with one duplicate. -/
theorem claim_C3_witness :
    (((sortGather 10 [(1, 2), (0, 3), (1, 2)]).map Prod.fst).Perm
        [(1, 2), (0, 3), (1, 2)].dedup)
      ∧ (∀ (v : Nat × Nat) (c : Nat),
          (v, c) ∈ sortGather 10 [(1, 2), (0, 3), (1, 2)] →
          c = min ([(1, 2), (0, 3), (1, 2)].count v) 10)
      ∧ (sortGather 10 [(1, 2), (0, 3), (1, 2)]).length
          = [(1, 2), (0, 3), (1, 2)].dedup.length
      ∧ ((∀ v, [(1, 2), (0, 3), (1, 2)].count v ≤ 10) →
          ((sortGather 10 [(1, 2), (0, 3), (1, 2)]).map (fun t => t.2)).sum
            = [(1, 2), (0, 3), (1, 2)].length) :=
  claim_C3 [(1, 2), (0, 3), (1, 2)] 10 (by decide)

/-- Claim C4: when the multiplicity of a pair exceeds `max_count`, the single
record aggregated for it stores exactly `max_count` (clamping). -/
theorem claim_C4 (pairs : List (Nat × Nat)) (M : Nat) (v : Nat × Nat)
    (hM : 1 ≤ M) (hcnt : M < pairs.count v) :
    (v, M) ∈ sortGather M pairs
      ∧ ∀ c, (v, c) ∈ sortGather M pairs → c = M := by
  have hmem : v ∈ pairs := by
    by_contra hcon
    rw [List.count_eq_zero_of_not_mem hcon] at hcnt
    omega
  obtain ⟨c, hc⟩ := sortGather_mem_exists M pairs v hmem
  have hceq := sortGather_counts M pairs hM v c hc
  have hcM : c = M := by rw [hceq]; omega
  constructor
  · exact hcM ▸ hc
  · intro c2 hc2
    have h2 := sortGather_counts M pairs hM v c2 hc2
    rw [h2]
    omega

/-- Witness for claim C4: nine identical pairs with `max_count = 3` aggregate
into a single record with count 3 (spec scenario F). -/
theorem claim_C4_witness :
    ((0, 1), 3) ∈ sortGather 3 (List.replicate 9 ((0 : Nat), (1 : Nat)))
      ∧ ∀ c, ((0, 1), c) ∈ sortGather 3 (List.replicate 9 ((0 : Nat), (1 : Nat)))
          → c = 3 :=
  claim_C4 (List.replicate 9 (0, 1)) 3 (0, 1) (by decide) (by decide)

/-- Claim C2: every pair emitted by the extraction step used by the counting
driver has its leader in the configured accepted-anchor set; and when no
anchor set is configured the acceptance guard is a no-op — the extraction
equals the unfiltered rediscovery over all collected leaders. -/
theorem claim_C2 (ll gl fl : Nat) (A : List Nat) (reads : List (List Nat)) :
    (∀ pr ∈ extractFafq ll gl fl (some A) reads, pr.1 ∈ A)
      ∧ extractFafq ll gl fl none reads
          = (reads.flatMap (enumLeadersRead ll gl fl)).flatMap
              (fun ld => reads.flatMap (rediscoverRead ll gl fl ld)) := by
  constructor
  · intro pr hpr
    rw [extractFafq, List.mem_flatMap] at hpr
    obtain ⟨ld, hld, hmem⟩ := hpr
    by_cases hacc : accepts (some A) ld = true
    · rw [if_pos hacc] at hmem
      rw [List.mem_flatMap] at hmem
      obtain ⟨r, _, hr⟩ := hmem
      have hfst := rediscoverRead_fst ll gl fl ld r pr hr
      have hmemA : ld ∈ A := by
        simpa [accepts] using hacc
      rw [hfst]
      exact hmemA
    · rw [if_neg hacc] at hmem
      exact absurd hmem (List.not_mem_nil pr)
  · rw [extractFafq]
    simp [accepts]

/-- Witness for claim C2: anchor set {A}, one read "AA". -/
theorem claim_C2_witness :
    (∀ pr ∈ extractFafq 1 0 1 (some [0]) [[65, 65]], pr.1 ∈ [0])
      ∧ extractFafq 1 0 1 none [[65, 65]]
          = ([[65, 65]].flatMap (enumLeadersRead 1 0 1)).flatMap
              (fun ld => [[65, 65]].flatMap (rediscoverRead 1 0 1 ld)) :=
  claim_C2 1 0 1 [0] [[65, 65]]

/-- Claim C1 counterexample: with `leader_len = 1`, `gap_len = 0`,
`follower_len = 1`, no anchor set, and one read "AAA", the CBC has exactly two
valid positions, yet the extraction step used by the counting driver appends
four pairs — not one pair per valid position (each of the two occurrences of
leader A is rediscovered at both positions). -/
theorem claim_C1_counterexample :
    (extractFafq 1 0 1 none [[65, 65, 65]]).length = 4
      ∧ ((List.range ([65, 65, 65].length + 1 - (1 + 0 + 1))).countP
          (validPosB 1 0 1 [65, 65, 65])) = 2 := by
  decide

/-- Claim C1 (amended): for every leader value `X`, the extraction step used
by the counting driver appends, when `X` is accepted, exactly `m * m` pairs
with leader `X`, where `m` is the number of valid positions across the CBC's
reads whose leader is `X` (`m` pairs per such position, not one), and no pairs
with leader `X` when `X` is not accepted. -/
theorem claim_C1_amended (ll gl fl : Nat) (A : Option (List Nat))
    (reads : List (List Nat)) (X : Nat) (hll : 1 ≤ ll) (hfl : 1 ≤ fl) :
    (extractFafq ll gl fl A reads).countP (fun pr => pr.1 == X)
      = if accepts A X = true
        then ((reads.flatMap (enumLeadersRead ll gl fl)).count X)
          * ((reads.flatMap (enumLeadersRead ll gl fl)).count X)
        else 0 := by
  by_cases hacc : accepts A X = true
  · rw [if_pos hacc]
    exact extractFafq_countP_acc ll gl fl X A reads hll hfl hacc
  · rw [if_neg hacc]
    have hfalse : accepts A X = false := by
      cases hb : accepts A X with
      | false => rfl
      | true => exact absurd hb hacc
    exact extractFafq_countP_notacc ll gl fl X A reads hfalse

/-- Witness for the amended claim C1 at the counterexample input: leader A
occurs at two valid positions and four pairs with leader A are appended. -/
theorem claim_C1_witness :
    (extractFafq 1 0 1 none [[65, 65, 65]]).countP (fun pr => pr.1 == 0)
      = if accepts none 0 = true
        then (([[65, 65, 65]].flatMap (enumLeadersRead 1 0 1)).count 0)
          * (([[65, 65, 65]].flatMap (enumLeadersRead 1 0 1)).count 0)
        else 0 :=
  claim_C1_amended 1 0 1 none [[65, 65, 65]] 0 (by decide) (by decide)

/-- Claim C10: the leader-enumeration pass collects, in order, exactly one
leader per position `p` with `p ≤ L - (leader_len + gap_len + follower_len)`
whose leader window at `p` and follower window at `p + leader_len + gap_len`
are simultaneously full; a position whose follower region holds an invalid
base, or that lies within the last `gap_len + follower_len` bases, is never
collected. -/
theorem claim_C10 (ll gl fl : Nat) (bases : List Nat)
    (hll : 1 ≤ ll) (hfl : 1 ≤ fl) :
    enumLeadersRead ll gl fl bases
      = (List.range (bases.length + 1 - (ll + gl + fl))).filterMap
          (emitAt ll gl fl bases) :=
  enumLeadersRead_eq ll gl fl bases hll hfl

/-- Witness for claim C10 at the read "ACNTTGCA" of spec scenario B. -/
theorem claim_C10_witness :
    enumLeadersRead 3 2 3 [65, 67, 78, 84, 84, 71, 67, 65]
      = (List.range ([65, 67, 78, 84, 84, 71, 67, 65].length + 1 - (3 + 2 + 3))).filterMap
          (emitAt 3 2 3 [65, 67, 78, 84, 84, 71, 67, 65]) :=
  claim_C10 3 2 3 [65, 67, 78, 84, 84, 71, 67, 65] (by decide) (by decide)
